import Mathlib

/-!
Verification of the `pipejob` execution engine (a local pipeline runner
written in Go).  The development shallowly embeds the engine:

* the YAML-backed data model (`PipelineFile`, `Job`, `Step` from types.go),
* the variable environment and `interpolate` (helpers.go),
* the bounded in-memory log buffer `appendToBuf` (main.go),
* the working-job-list helpers `resolveJobIndexExec` and `insertResumeJob`
  (exec.go / main.go),
* the per-step condition / when / else / on-timeout evaluator and the
  job/step control-flow interpreter `RunWithArgs` (main.go), and
* the exit-code classification of the command supervisor
  `runLocalCommandExec` (exec.go).

External collaborators are abstracted as parameters, exactly at the
interface the Go code uses them through:

* the RE2 regular-expression engine (Go package `regexp`) appears as a
  parameter `rmatch : String → String → Except Unit Bool` where
  `rmatch pat s` is `regexp.Compile(pat)` followed by `MatchString(s)`
  (`Except.error` models a compile error);
* `time.ParseDuration` validity appears as `validDur : String → Bool`
  (the engine only uses the parsed duration inside the supervisor, which
  is abstracted behind the command oracle);
* actual command execution appears as an oracle
  `oracle : Nat → String → CmdResult` mapping the index of the executed
  command and its interpolated command line to the observable result
  `runLocalCommandExec` returns (captured output, exit code, error flag);
* `time.Now().UnixNano()`, used only to generate fresh resume-job names,
  appears as a monotone counter threaded through the interpreter state.
-/

namespace Pipejob

/-- Observable result of `runLocalCommandExec` as seen by `RunWithArgs`:
captured combined output, exit code, and whether a non-nil Go error was
returned (`err != nil`). -/
structure CmdResult where
  out : String
  code : Int
  isErr : Bool
  deriving DecidableEq, Repr, Inhabited

/-- A legacy `conditions` entry (types.go: `Pattern`, `Action`, `Step`, `Job`). -/
structure Cond where
  pattern : String
  action : String
  step : String
  job : String
  deriving DecidableEq, Repr, Inhabited

/-- A `when` DSL rule (types.go: `Contains`, `Equals`, `Regex`, `ExitCode`,
`Action`, `Step`, `Job`).  `ExitCode *int` becomes `Option Int`. -/
structure WhenRule where
  contains : String
  equals : String
  regex : String
  exitCode : Option Int
  action : String
  step : String
  job : String
  deriving DecidableEq, Repr, Inhabited

/-- A pipeline step (types.go `Step`). -/
structure Step where
  name : String
  type : String
  command : String
  commands : List String
  saveOutput : String
  silent : Bool
  conditions : List Cond
  whenRules : List WhenRule
  elseAction : String
  elseStep : String
  elseJob : String
  timeout : String
  idleTimeout : String
  onTimeout : String
  onTimeoutStep : String
  onTimeoutJob : String
  deriving DecidableEq, Repr, Inhabited

/-- A job (types.go `Job`). -/
structure Job where
  name : String
  steps : List Step
  deriving DecidableEq, Repr, Inhabited

/-- The variable environment: Go `map[string]string`, modelled as an
association list (Go map iteration order is unspecified; we fix insertion
order, which is irrelevant to the claims proved here). -/
def VarMap : Type := List (String × String)

instance : DecidableEq VarMap := inferInstanceAs (DecidableEq (List (String × String)))
instance : Inhabited VarMap := ⟨[]⟩
instance : Repr VarMap := inferInstanceAs (Repr (List (String × String)))

/-- Go map assignment `m[k] = v`: replace the binding if present, else add. -/
def setVar (m : VarMap) (k v : String) : VarMap :=
  match m with
  | [] => [(k, v)]
  | (k', v') :: t => if k' = k then (k, v) :: t else (k', v') :: setVar t k v

/-- Go map lookup `m[k]`. -/
def getVar (m : VarMap) (k : String) : Option String :=
  match m with
  | [] => none
  | (k', v') :: t => if k' = k then some v' else getVar t k

/-- `needle` occurs as a contiguous sublist of `hay`
(Go `strings.Contains` on the underlying bytes/runes). -/
def listIsInfix [BEq α] (needle hay : List α) : Bool :=
  match hay with
  | [] => needle.isEmpty
  | _ :: t => needle.isPrefixOf hay || listIsInfix needle t

/-- Go `strings.Contains hay needle`. -/
def strContains (hay needle : String) : Bool :=
  listIsInfix needle.data hay.data

/-- Go `strings.ToLower` (character-wise lowercasing). -/
def toLowerStr (s : String) : String :=
  ⟨s.data.map Char.toLower⟩

/-- Go `strings.TrimSpace`: strip leading and trailing whitespace. -/
def trimStr (s : String) : String :=
  ⟨((s.data.dropWhile Char.isWhitespace).reverse.dropWhile Char.isWhitespace).reverse⟩

/-- helpers.go `interpolate`: replace every occurrence of the four
placeholder spellings of each variable. -/
def interpolate (tmpl : String) (vars : VarMap) : String :=
  if tmpl = "" then tmpl
  else
    vars.foldl
      (fun res kv =>
        let res := res.replace ("\x7b\x7b" ++ kv.1 ++ "\x7d\x7d") kv.2
        let res := res.replace ("\x7b\x7b " ++ kv.1 ++ " \x7d\x7d") kv.2
        let res := res.replace ("\x7b\x7b." ++ kv.1 ++ "\x7d\x7d") kv.2
        res.replace ("\x7b\x7b ." ++ kv.1 ++ " \x7d\x7d") kv.2)
      tmpl

/-! ### The bounded log buffer (main.go, `logCap` / `appendToBuf`) -/

/-- main.go: `const logCap = 307200 // 300 KB`. -/
def logCap : Nat := 307200

/-- main.go `appendToBuf`: append `b`, then keep only the trailing
`logCap` bytes when over capacity.  Empty writes return immediately. -/
def appendToBuf (buf b : List UInt8) : List UInt8 :=
  if b.length = 0 then buf
  else
    let nb := buf ++ b
    if nb.length > logCap then nb.drop (nb.length - logCap) else nb

/-- The trailing `logCap` bytes of a byte string (all of it when shorter). -/
def lastBytes (l : List UInt8) : List UInt8 :=
  l.drop (l.length - logCap)

/-! ### Command supervisor exit-code classification (exec.go) -/

/-- The Go error `runLocalCommandExec` observes from `cmd.Wait()`:
an `*exec.ExitError` carrying the process exit status, or any other
error (including an `ExitError` whose `Sys()` lacks `ExitStatus`). -/
inductive WaitErr where
  | exitErr (code : Int)
  | otherErr
  deriving DecidableEq, Repr

/-- What happened to one supervised command, abstracting the concurrent
race in `runLocalCommandExec` (exec.go lines 91-198) to its observable
determinants: `pipeErr`/`startErr` are the early returns from pipe
creation and `cmd.Start()`; `ran` records whether the idle watchdog fired
(`timedOut`), whether the total-timeout context reported
`context.DeadlineExceeded`, and the value of `waitErr` (`none` = nil). -/
inductive SpawnPhase where
  | pipeErr
  | startErr
  | ran (timedOut ctxDeadline : Bool) (waitErr : Option WaitErr)
  deriving DecidableEq, Repr

/-- exec.go: the early returns (lines 91-102) and the `AFTER_WAIT`
classification (lines 200-214) of `runLocalCommandExec`. -/
def runLocalResultCode : SpawnPhase → Int
  | .pipeErr => 1
  | .startErr => 1
  | .ran timedOut ctxDeadline waitErr =>
      match waitErr with
      | none => 0
      | some w =>
          if timedOut || ctxDeadline then 124
          else
            match w with
            | .exitErr c => c
            | .otherErr => 1

/-! ### Working job list helpers (exec.go / main.go) -/

/-- Go slice splice `append(l[:pos], append([]Job{a}, l[pos:]...)...)`. -/
def insertAt (l : List α) (pos : Nat) (a : α) : List α :=
  l.take pos ++ [a] ++ l.drop pos

/-- exec.go lines 21-25: `for i := range *execJobs { if name == target
{ return i, true } }` — index of the first job with the given name. -/
def findJobIdx (jobs : List Job) (target : String) : Option Nat :=
  match jobs with
  | [] => none
  | j :: rest =>
      if j.name = target then some 0 else (findJobIdx rest target).map (· + 1)

/-- exec.go `resolveJobIndexExec`: find `target` in the working list; if
absent, find it among declared jobs and insert it right after
`insertAfter` (clamped).  `none` models the Go return `(-1, false)`; on
success the (possibly extended) working list is returned with the index. -/
def resolveJobIndexExec (execJobs : List Job) (allJobs : List Job)
    (target : String) (insertAfter : Int) : Option (Nat × List Job) :=
  match findJobIdx execJobs target with
  | some i => some (i, execJobs)
  | none =>
      match allJobs.find? (fun j => j.name == target) with
      | some j =>
          let pos0 : Int := insertAfter + 1
          let pos : Nat := if pos0 < 0 then 0 else min pos0.toNat execJobs.length
          some (pos, insertAt execJobs pos j)
      | none => none

/-- main.go `insertResumeJob`: when the deciding step is not the last of
its job, insert a one-shot job holding the remaining steps immediately
after index `after`.  The Go name suffix `strconv.FormatInt(time.Now().UnixNano(), 10)`
is abstracted as the `suffix` argument (supplied from a monotone counter
by the interpreter). -/
def insertResumeJob (execJobs : List Job) (after : Int) (job : Job)
    (resumeFrom : Int) (suffix : String) : List Job :=
  if resumeFrom + 1 ≥ (job.steps.length : Int) then execJobs
  else
    let rem := job.steps.drop (resumeFrom + 1).toNat
    let newJob : Job := ⟨job.name ++ "-resume-" ++ suffix, rem⟩
    let pos0 : Int := after + 1
    let pos : Nat := if pos0 < 0 then 0 else min pos0.toNat execJobs.length
    insertAt execJobs pos newJob

/-- Go map assignment on a `map[string]int`. -/
def setIdx (m : List (String × Nat)) (k : String) (v : Nat) : List (String × Nat) :=
  match m with
  | [] => [(k, v)]
  | (k', v') :: t => if k' = k then (k, v) :: t else (k', v') :: setIdx t k v

/-- The loop of `stepIndexMap`, carrying the running index `i`. -/
def stepIndexMapAux (i : Nat) (steps : List Step) (m : List (String × Nat)) :
    List (String × Nat) :=
  match steps with
  | [] => m
  | s :: rest => stepIndexMapAux (i + 1) rest (setIdx m s.name i)

/-- main.go: `stepIndex := map[string]int{}; for i, s := range job.Steps
{ stepIndex[s.Name] = i }` — later duplicate names overwrite earlier. -/
def stepIndexMap (steps : List Step) : List (String × Nat) :=
  stepIndexMapAux 0 steps []

/-- Go map lookup on the step index. -/
def getIdx (m : List (String × Nat)) (k : String) : Option Nat :=
  match m with
  | [] => none
  | (k', v') :: t => if k' = k then some v' else getIdx t k

/-- `stepIndex[name]` for the current job. -/
def stepIndexOf (job : Job) (name : String) : Option Nat :=
  getIdx (stepIndexMap job.steps) name

/-! ### The per-step evaluator (main.go, body of the inner step loop) -/

/-- The mutable locals of `RunWithArgs` threaded through step evaluation:
the step cursor `si` and job cursor `ji` (Go `int`s that transiently hold
`target - 1` before the loop increment), the working job list
(`execJobs`), the variable environment, the count of commands executed so
far (feeds the command oracle), the resume-name counter (abstracts
`time.Now().UnixNano()`), the per-step `conditionMatched` flag, and an
instrumentation trace of `(job name, step name)` pairs in execution
order. -/
structure EvalState where
  si : Int
  ji : Int
  jobs : List Job
  vars : VarMap
  cmdIdx : Nat
  resumeCtr : Nat
  matched : Bool
  trace : List (String × String)
  deriving DecidableEq, Repr, Inhabited

/-- One `switch action` block of `RunWithArgs` (the identical blocks at
main.go lines 490-542 for legacy conditions, 583-632 for when-rules,
638-691 for the else branch, and 698-750 for on-timeout; they differ only
in which fields supply the action and its targets, passed here as
`action` / `target` / `jobTarget`).  `Except.error rc` models `return rc`.
`curJob` is the job value captured by `job := &execJobs[ji]` at job entry
(insertions into `execJobs` never mutate it). -/
def applyAction (allJobs : List Job) (curJob : Job) (action target jobTarget : String)
    (st : EvalState) : Except Nat EvalState :=
  if action = "continue" then .ok st
  else if action = "drop" then .error 0
  else if action = "goto_step" then
    if target = "" then .error 6
    else
      match stepIndexOf curJob target with
      | none => .error 6
      | some idx => .ok { st with si := (idx : Int) - 1 }
  else if action = "goto_job" then
    if jobTarget = "" then .error 6
    else
      match resolveJobIndexExec st.jobs allJobs jobTarget st.ji with
      | none => .error 6
      | some (found, jobs') =>
          let jobs'' := insertResumeJob jobs' (found : Int) curJob st.si
            (toString st.resumeCtr)
          .ok { st with
                  jobs := jobs''
                  ji := (found : Int) - 1
                  resumeCtr := st.resumeCtr + 1
                  si := (curJob.steps.length : Int) }
  else if action = "fail" then .error 7
  else .error 6

/-- The legacy `conditions` loop (main.go lines 479-545).  Note the Go
loop has no `break` after a match: every matching condition's action is
applied, and `conditionMatched` is set before each application. -/
def condLoop (rmatch : String → String → Except Unit Bool) (allJobs : List Job)
    (curJob : Job) (outStr : String) (conds : List Cond) (st : EvalState) :
    Except Nat EvalState :=
  match conds with
  | [] => .ok st
  | c :: rest =>
      match rmatch (interpolate c.pattern st.vars) outStr with
      | .error _ => .error 6
      | .ok b =>
          if b then
            match applyAction allJobs curJob c.action c.step c.job
                { st with matched := true } with
            | .error rc => .error rc
            | .ok st' => condLoop rmatch allJobs curJob outStr rest st'
          else condLoop rmatch allJobs curJob outStr rest st

/-- `if !match && w.ExitCode != nil { if lastExitCode == *w.ExitCode ... }`. -/
def exitCodeTest (w : WhenRule) (lastExit : Int) : Bool :=
  match w.exitCode with
  | some c => lastExit == c
  | none => false

/-- Whether one `when` rule matches (main.go lines 550-579): the
operators are tried in the order contains, equals, regex, exit_code; the
regex is only compiled when no earlier operator matched and the rule has
one; `Except.error` is an invalid regex (which aborts the run with 6). -/
def evalWhenMatch (rmatch : String → String → Except Unit Bool) (outStr : String)
    (lastExit : Int) (vars : VarMap) (w : WhenRule) : Except Unit Bool :=
  let m := w.contains != "" && strContains outStr (interpolate w.contains vars)
  let m := m || (w.equals != "" && trimStr outStr == trimStr (interpolate w.equals vars))
  if m then .ok true
  else if w.regex != "" then
    match rmatch (interpolate w.regex vars) outStr with
    | .error e => .error e
    | .ok b => if b then .ok true else .ok (exitCodeTest w lastExit)
  else .ok (exitCodeTest w lastExit)

/-- The `when` DSL loop (main.go lines 548-635).  Unlike the legacy loop
it `break`s right after the first matching rule's action is applied. -/
def whenLoop (rmatch : String → String → Except Unit Bool) (allJobs : List Job)
    (curJob : Job) (outStr : String) (lastExit : Int) (ws : List WhenRule)
    (st : EvalState) : Except Nat EvalState :=
  match ws with
  | [] => .ok st
  | w :: rest =>
      match evalWhenMatch rmatch outStr lastExit st.vars w with
      | .error _ => .error 6
      | .ok true =>
          applyAction allJobs curJob w.action w.step w.job { st with matched := true }
      | .ok false => whenLoop rmatch allJobs curJob outStr lastExit rest st

/-- The else branch (main.go lines 637-692): runs only when nothing
matched and an `else_action` is declared.  It does not itself set
`conditionMatched` — the assignment on line 694 is unconditional and is
modelled separately in `evalStepRules`. -/
def elseStage (allJobs : List Job) (curJob : Job) (step : Step)
    (st : EvalState) : Except Nat EvalState :=
  if !st.matched && step.elseAction != "" then
    applyAction allJobs curJob step.elseAction step.elseStep step.elseJob st
  else .ok st

/-- The on-timeout shortcut (main.go lines 697-753), guarded by
`errOccurred && lastExitCode == 124 && step.OnTimeout != "" && !conditionMatched`;
on a handled timeout it sets `conditionMatched` (line 752). -/
def onTimeoutStage (allJobs : List Job) (curJob : Job) (step : Step)
    (lastExit : Int) (errOccurred : Bool) (st : EvalState) : Except Nat EvalState :=
  if errOccurred && lastExit == 124 && step.onTimeout != "" && !st.matched then
    match applyAction allJobs curJob step.onTimeout step.onTimeoutStep
        step.onTimeoutJob st with
    | .error rc => .error rc
    | .ok st' => .ok { st' with matched := true }
  else .ok st

/-- Rule evaluation for one step (main.go lines 476-761), after the
commands have run and `save_output` has been stored: legacy conditions,
then when-rules (only if nothing matched), then the else branch, then the
unconditional `conditionMatched = true` of line 694, then the on-timeout
shortcut, then the unmatched-failure check (`return 5`). -/
def evalStepRules (rmatch : String → String → Except Unit Bool) (allJobs : List Job)
    (curJob : Job) (step : Step) (outStr : String) (lastExit : Int)
    (errOccurred : Bool) (st : EvalState) : Except Nat EvalState :=
  match condLoop rmatch allJobs curJob outStr step.conditions
      { st with matched := false } with
  | .error rc => .error rc
  | .ok st1 =>
      match (if st1.matched then .ok st1
             else whenLoop rmatch allJobs curJob outStr lastExit step.whenRules st1) with
      | .error rc => .error rc
      | .ok st2 =>
          match elseStage allJobs curJob step st2 with
          | .error rc => .error rc
          | .ok st2e =>
              match onTimeoutStage allJobs curJob step lastExit errOccurred
                  { st2e with matched := true } with
              | .error rc => .error rc
              | .ok st4 =>
                  if !st4.matched && errOccurred then .error 5 else .ok st4

/-- External collaborators of the interpreter, at their interface
boundary (see the module header). -/
structure Env where
  validDur : String → Bool
  rmatch : String → String → Except Unit Bool
  oracle : Nat → String → CmdResult

/-- Run the step's command list (main.go lines 443-468): interpolate each
command line, run it, accumulate the combined output, remember the last
exit code and whether any command returned an error.  Returns
(combined output, last exit code, errOccurred, next command index). -/
def runCmds (env : Env) (vars : VarMap) (cmdIdx : Nat) (cmds : List String) :
    String × Int × Bool × Nat :=
  match cmds with
  | [] => ("", 0, false, cmdIdx)
  | c :: rest =>
      let r := env.oracle cmdIdx (interpolate c vars)
      let (out', last', err', ci') := runCmds env vars (cmdIdx + 1) rest
      (r.out ++ out', if rest = [] then r.code else last',
       r.isErr || err', ci')

/-- `save_output` handling followed by rule evaluation (main.go lines
470-761): if the step declares a `save_output` key, store the
whitespace-trimmed combined output into the variable environment before
any condition is evaluated. -/
def afterCmds (rmatch : String → String → Except Unit Bool) (allJobs : List Job)
    (curJob : Job) (step : Step) (outStr : String) (lastExit : Int)
    (errOccurred : Bool) (st : EvalState) : Except Nat EvalState :=
  let st := if step.saveOutput != "" then
      { st with vars := setVar st.vars step.saveOutput (trimStr outStr) }
    else st
  evalStepRules rmatch allJobs curJob step outStr lastExit errOccurred st

/-- The full body of one inner-loop iteration (main.go lines 390-761):
unsupported-type abort (4), timeout string validation (6), building the
command list, running it, then `afterCmds`. -/
def runStep (env : Env) (allJobs : List Job) (curJob : Job) (step : Step)
    (st : EvalState) : Except Nat EvalState :=
  if toLowerStr step.type != "command" && step.type != "" then .error 4
  else if step.timeout != "" && !env.validDur step.timeout then .error 6
  else if step.idleTimeout != "" && !env.validDur step.idleTimeout then .error 6
  else
    let cmds := if step.commands.length = 0 && step.command != "" then [step.command]
      else step.commands
    let r := runCmds env st.vars st.cmdIdx cmds
    let st := { st with cmdIdx := r.2.2.2 }
    afterCmds env.rmatch allJobs curJob step r.1 r.2.1 r.2.2.1 st

/-- Result of a loop: the function executed `return rc` (with the state
at that moment, kept for the instrumentation trace), or the loop ran out
of iterations normally. -/
inductive LoopOut where
  | ret (rc : Nat) (st : EvalState)
  | fellThrough (st : EvalState)
  deriving Repr

/-- The inner step loop `for si := 0; si < len(job.Steps); si++`
(main.go lines 390-762).  `curJob` is fixed for the whole loop (the Go
`job` pointer aims at the captured job value even after insertions grow
`execJobs`).  `fuel` bounds the iteration count: the engine has no cycle
protection, so runs need not terminate. -/
def stepsLoop (env : Env) (allJobs : List Job) (fuel : Nat) (curJob : Job)
    (st : EvalState) : Option LoopOut :=
  match fuel with
  | 0 => none
  | fuel + 1 =>
      if st.si < (curJob.steps.length : Int) then
        let step := curJob.steps.getD st.si.toNat default
        let st := { st with trace := st.trace ++ [(curJob.name, step.name)] }
        match runStep env allJobs curJob step st with
        | .error rc => some (.ret rc st)
        | .ok st' => stepsLoop env allJobs fuel curJob { st' with si := st'.si + 1 }
      else some (.fellThrough st)

/-- The outer job loop `for ji := 0; ji < len(execJobs); ji++`
(main.go lines 380-764); falling off the end is the final `return 0`. -/
def jobsLoop (env : Env) (allJobs : List Job) (fuel : Nat) (st : EvalState) :
    Option (Nat × EvalState) :=
  match fuel with
  | 0 => none
  | fuel + 1 =>
      if st.ji < (st.jobs.length : Int) then
        let curJob := st.jobs.getD st.ji.toNat default
        match stepsLoop env allJobs fuel curJob { st with si := 0 } with
        | none => none
        | some (.ret rc st') => some (rc, st')
        | some (.fellThrough st') =>
            jobsLoop env allJobs fuel { st' with ji := st'.ji + 1 }
      else some (0, st)

/-- The declared pipeline (types.go `PipelineFile.Pipeline`), restricted
to the fields the execution engine reads. -/
structure Pipeline where
  name : String
  runs : List String
  /-- the `variables` map of the YAML (field renamed: `variables` is a
  reserved word here). -/
  vars : VarMap
  jobs : List Job
  deriving Repr, Inhabited

/-- `jm[j.Name] = j` over the declared jobs then lookup: with duplicate
names the last declaration wins (Go map semantics). -/
def jobByName (jobs : List Job) (n : String) : Option Job :=
  jobs.reverse.find? (fun j => j.name == n)

/-- main.go lines 357-376: the working job list is the `runs` order when
given (aborting with 6 on an unknown name), else declaration order. -/
def resolveExecJobs (p : Pipeline) : Except Nat (List Job) :=
  if p.runs.length > 0 then
    p.runs.foldr
      (fun n acc =>
        match jobByName p.jobs n with
        | none => .error 6
        | some j =>
            match acc with
            | .error rc => .error rc
            | .ok js => .ok (j :: js))
      (.ok [])
  else .ok p.jobs

/-- The execution phase of `RunWithArgs` (main.go lines 357-769), given a
parsed pipeline and the collaborators: resolve the execution order, then
drive the job/step loops.  `none` = fuel exhausted. -/
def runPipeline (env : Env) (p : Pipeline) (fuel : Nat) :
    Option (Nat × EvalState) :=
  match resolveExecJobs p with
  | .error rc =>
      some (rc, { si := 0, ji := 0, jobs := [], vars := p.vars,
                  cmdIdx := 0, resumeCtr := 0, matched := false, trace := [] })
  | .ok execJobs =>
      jobsLoop env p.jobs fuel
        { si := 0, ji := 0, jobs := execJobs, vars := p.vars,
          cmdIdx := 0, resumeCtr := 0, matched := false, trace := [] }

/-! ### Test fixtures

A regex oracle for patterns that are plain literals (RE2 without
metacharacters matches a literal pattern exactly when it occurs as a
substring), a step builder, and small concrete pipelines exercised by the
theorems below. -/

/-- RE2 restricted to literal patterns: compiles always, matches by
substring containment (`regexp.MatchString pat s` for metacharacter-free
`pat`). -/
def litMatch : String → String → Except Unit Bool :=
  fun pat s => .ok (strContains s pat)

/-- A plain `type: command` step with one command and no rules. -/
def mkStep (n cmd : String) : Step :=
  { name := n, type := "command", command := cmd, commands := [], saveOutput := "",
    silent := false, conditions := [], whenRules := [], elseAction := "",
    elseStep := "", elseJob := "", timeout := "", idleTimeout := "",
    onTimeout := "", onTimeoutStep := "", onTimeoutJob := "" }

/-- Job `A` step `a1`: its legacy condition `pattern: go → goto_job B`
fires on the output of `echo go`. -/
def stA1 : Step :=
  { mkStep "a1" "echo go" with conditions := [⟨"go", "goto_job", "", "B"⟩] }

/-- Three-step job whose first step jumps to job `B`. -/
def jobA : Job := ⟨"A", [stA1, mkStep "a2" "echo a2", mkStep "a3" "echo a3"]⟩

/-- One-step target job. -/
def jobB : Job := ⟨"B", [mkStep "b1" "echo b1"]⟩

/-- Two jobs; a cross-job jump out of `A`'s first step must detour
through `B` and come back for `a2`, `a3`. -/
def pResume : Pipeline :=
  { name := "p", runs := [], vars := [], jobs := [jobA, jobB] }

/-- An interpreter state at the start of the `[jobA, jobB]` working
list, used to exercise single actions. -/
def stStart : EvalState :=
  { si := 0, ji := 0, jobs := [jobA, jobB], vars := [], cmdIdx := 0,
    resumeCtr := 0, matched := false, trace := [] }

/-- Environment for `pResume`: `echo go` prints `go`, everything else
succeeds silently. -/
def envResume : Env :=
  { validDur := fun _ => true, rmatch := litMatch,
    oracle := fun _ c => if c = "echo go" then ⟨"go", 0, false⟩ else ⟨"", 0, false⟩ }

/-! ### Bounded log buffer: capacity and trailing-window invariant (C8) -/

/-- The trailing window never exceeds the capacity. -/
theorem lastBytes_length_le (l : List UInt8) : (lastBytes l).length ≤ logCap := by
  unfold lastBytes
  rw [List.length_drop]
  omega

/-- Reversed, the trailing window is the first `logCap` bytes. -/
theorem lastBytes_reverse (l : List UInt8) :
    (lastBytes l).reverse = l.reverse.take logCap := by
  unfold lastBytes
  rw [List.reverse_drop, List.take_eq_take]
  rw [List.length_reverse]
  omega

/-- Only the first `n` elements of the second part matter to `take n`. -/
theorem take_append_take (n : Nat) (x y : List UInt8) :
    (x ++ y.take n).take n = (x ++ y).take n := by
  rw [List.take_append_eq_append_take, List.take_append_eq_append_take,
    List.take_take, Nat.min_eq_left (Nat.sub_le n x.length)]

/-- `appendToBuf` always leaves exactly the trailing window of the
concatenation (the no-truncation branch drops zero bytes). -/
theorem appendToBuf_eq (buf b : List UInt8) :
    appendToBuf buf b = if b.length = 0 then buf else lastBytes (buf ++ b) := by
  unfold appendToBuf lastBytes
  split
  · rfl
  · show (if (buf ++ b).length > logCap then
        (buf ++ b).drop ((buf ++ b).length - logCap) else buf ++ b) = _
    split
    · rfl
    · rw [Nat.sub_eq_zero_of_le (by omega), List.drop_zero]

/-- Re-truncating an already truncated buffer loses nothing further. -/
theorem lastBytes_append_lastBytes (h b : List UInt8) :
    lastBytes (lastBytes h ++ b) = lastBytes (h ++ b) := by
  apply List.reverse_injective
  rw [lastBytes_reverse, lastBytes_reverse, List.reverse_append, List.reverse_append,
    lastBytes_reverse, take_append_take]

/-- Folding `appendToBuf` over any write sequence starting from a
truncated history yields the truncation of the full history. -/
theorem foldl_appendToBuf (ws : List (List UInt8)) :
    ∀ h, ws.foldl appendToBuf (lastBytes h) = lastBytes (h ++ ws.flatten) := by
  induction ws with
  | nil =>
      intro h
      rw [List.foldl_nil, List.flatten_nil, List.append_nil]
  | cons w ws ih =>
      intro h
      rw [List.foldl_cons, appendToBuf_eq]
      by_cases hw : w.length = 0
      · rw [List.length_eq_zero.mp hw,
          if_pos (show ([] : List UInt8).length = 0 from rfl), List.flatten_cons,
          List.nil_append]
        exact ih h
      · rw [if_neg hw, lastBytes_append_lastBytes, ih (h ++ w), List.flatten_cons,
          List.append_assoc]

/-- C8: for every sequence of appends to the bounded log buffer, after
each append (i.e. for every prefix of the write sequence, hence for the
arbitrary sequence `ws` quantified here) the buffer's length never
exceeds the configured capacity `logCap = 307200`, and its content is
exactly the trailing `logCap` bytes of the concatenation of everything
written so far (all of it when shorter). -/
theorem appendToBuf_bounded_trailing (ws : List (List UInt8)) :
    (ws.foldl appendToBuf []).length ≤ logCap ∧
    ws.foldl appendToBuf [] = lastBytes ws.flatten := by
  have main := foldl_appendToBuf ws []
  rw [List.nil_append] at main
  have h0 : lastBytes [] = ([] : List UInt8) := rfl
  rw [h0] at main
  rw [main]
  exact ⟨lastBytes_length_le _, rfl⟩

/-! ### Command supervisor exit-code classification (C7) -/

/-- C7: the supervisor reports the real exit code on natural process
completion (a nil wait error means exit code 0; an `ExitError` with
status `c` and no timeout of either kind means `c`); it reports the
sentinel 124 whenever the command was killed by the idle watchdog or by
the total deadline — either may fire first, both yield 124 for every
non-nil wait error; and any other spawn/wait error with no timeout
involved yields exit code 1 (pipe-creation and start errors included). -/
theorem runLocalResultCode_spec :
    (∀ t d : Bool, runLocalResultCode (.ran t d none) = 0) ∧
    (∀ c : Int, runLocalResultCode (.ran false false (some (.exitErr c))) = c) ∧
    (∀ (d : Bool) (w : WaitErr), runLocalResultCode (.ran true d (some w)) = 124) ∧
    (∀ (t : Bool) (w : WaitErr), runLocalResultCode (.ran t true (some w)) = 124) ∧
    runLocalResultCode (.ran false false (some .otherErr)) = 1 ∧
    runLocalResultCode .pipeErr = 1 ∧
    runLocalResultCode .startErr = 1 := by
  refine ⟨fun t d => rfl, fun c => rfl, fun d w => rfl, fun t w => ?_, rfl, rfl, rfl⟩
  cases t <;> rfl

/-! ### Step-index and job-list resolution lemmas (C4, C5, C6) -/

theorem getIdx_setIdx_self (m : List (String × Nat)) (k : String) (v : Nat) :
    getIdx (setIdx m k v) k = some v := by
  induction m with
  | nil => simp [setIdx, getIdx]
  | cons p t ih =>
      by_cases h : p.1 = k
      · simp [setIdx, getIdx, h]
      · simp [setIdx, getIdx, h, ih]

theorem getIdx_setIdx_ne (m : List (String × Nat)) (k t : String) (v : Nat)
    (h : k ≠ t) : getIdx (setIdx m k v) t = getIdx m t := by
  induction m with
  | nil => simp [setIdx, getIdx, h]
  | cons p rest ih =>
      by_cases h2 : p.1 = k
      · simp [setIdx, getIdx, h2, h]
      · simp [setIdx, getIdx, h2, ih]

theorem stepIndexMapAux_not_mem (l : List Step) :
    ∀ (i : Nat) (m : List (String × Nat)) (t : String),
    (∀ s ∈ l, s.name ≠ t) → getIdx (stepIndexMapAux i l m) t = getIdx m t := by
  induction l with
  | nil => intro i m t _; rfl
  | cons s rest ih =>
      intro i m t h
      rw [stepIndexMapAux, ih (i + 1) _ t (fun x hx => h x (List.mem_cons_of_mem _ hx)),
        getIdx_setIdx_ne _ _ _ _ (h s (List.mem_cons_self _ _))]

/-- `goto_step` resolution sees only the current job's steps: a name not
declared there is not in the step index. -/
theorem stepIndexOf_eq_none (job : Job) (t : String)
    (h : ∀ s ∈ job.steps, s.name ≠ t) : stepIndexOf job t = none := by
  unfold stepIndexOf stepIndexMap
  rw [stepIndexMapAux_not_mem _ _ _ _ h]
  rfl

theorem stepIndexMapAux_mem (l : List Step) :
    ∀ (i : Nat) (m : List (String × Nat)) (k : String) (v : Nat),
    getIdx (stepIndexMapAux i l m) k = some v →
    (∃ j s, l.get? j = some s ∧ s.name = k ∧ v = i + j) ∨ getIdx m k = some v := by
  induction l with
  | nil => intro i m k v h; exact Or.inr h
  | cons s rest ih =>
      intro i m k v h
      rw [stepIndexMapAux] at h
      rcases ih (i + 1) _ k v h with ⟨j, s', hj, hn, hv⟩ | hm
      · exact Or.inl ⟨j + 1, s', by simpa using hj, hn, by omega⟩
      · by_cases hk : s.name = k
        · subst hk
          rw [getIdx_setIdx_self] at hm
          cases hm
          exact Or.inl ⟨0, s, rfl, rfl, by omega⟩
        · rw [getIdx_setIdx_ne _ _ _ _ hk] at hm
          exact Or.inr hm

/-- A hit in the step index is a real step of the job bearing that name. -/
theorem stepIndexOf_valid (job : Job) (t : String) (idx : Nat)
    (h : stepIndexOf job t = some idx) :
    ∃ s, job.steps.get? idx = some s ∧ s.name = t := by
  unfold stepIndexOf stepIndexMap at h
  rcases stepIndexMapAux_mem _ _ _ _ _ h with ⟨j, s, hj, hn, hv⟩ | hm
  · exact ⟨s, by simpa [hv] using hj, hn⟩
  · simp [getIdx] at hm

theorem findJobIdx_none (jobs : List Job) (t : String)
    (h : ∀ j ∈ jobs, j.name ≠ t) : findJobIdx jobs t = none := by
  induction jobs with
  | nil => rfl
  | cons j rest ih =>
      rw [findJobIdx, if_neg (h j (List.mem_cons_self _ _)),
        ih fun x hx => h x (List.mem_cons_of_mem _ hx)]
      rfl

/-- A hit of the working-list scan is the first job bearing the name. -/
theorem findJobIdx_first (jobs : List Job) (t : String) :
    ∀ i, findJobIdx jobs t = some i →
    ∃ jb, jobs.get? i = some jb ∧ jb.name = t ∧
      ∀ k jb', k < i → jobs.get? k = some jb' → jb'.name ≠ t := by
  induction jobs with
  | nil => intro i h; simp [findJobIdx] at h
  | cons j rest ih =>
      intro i h
      rw [findJobIdx] at h
      by_cases hj : j.name = t
      · rw [if_pos hj] at h
        cases h
        exact ⟨j, rfl, hj, fun k jb' hk => by omega⟩
      · rw [if_neg hj] at h
        rcases Option.map_eq_some'.mp h with ⟨i', hi', rfl⟩
        rcases ih i' hi' with ⟨jb, hget, hname, hfirst⟩
        refine ⟨jb, by simpa using hget, hname, fun k jb' hk hget' => ?_⟩
        match k with
        | 0 => cases hget'; exact hj
        | k + 1 => exact hfirst k jb' (by omega) (by simpa using hget')

theorem insertAt_length (l : List α) (pos : Nat) (a : α) (h : pos ≤ l.length) :
    (insertAt l pos a).length = l.length + 1 := by
  simp [insertAt]
  omega

theorem insertAt_get_self (l : List α) (pos : Nat) (a : α) (h : pos ≤ l.length) :
    (insertAt l pos a).get? pos = some a := by
  unfold insertAt
  have hlt : (l.take pos).length = pos := by rw [List.length_take]; omega
  rw [List.get?_append (by simp [hlt]), List.get?_append_right (le_of_eq hlt),
    hlt, Nat.sub_self]
  rfl

theorem insertAt_get_lt (l : List α) (pos : Nat) (a : α) (k : Nat)
    (hpos : pos ≤ l.length) (h : k < pos) :
    (insertAt l pos a).get? k = l.get? k := by
  unfold insertAt
  have hlt : (l.take pos).length = pos := by rw [List.length_take]; omega
  rw [List.get?_append (by simp [hlt]; omega),
    List.get?_append (by rw [hlt]; omega), List.get?_take h]

theorem insertAt_get_ge (l : List α) (pos : Nat) (a : α) (k : Nat)
    (hpos : pos ≤ l.length) (h : pos ≤ k) :
    (insertAt l pos a).get? (k + 1) = l.get? k := by
  unfold insertAt
  have hlt : (l.take pos).length = pos := by rw [List.length_take]; omega
  rw [List.get?_append_right (by simp [hlt]; omega)]
  rw [show k + 1 - (l.take pos ++ [a]).length = k - pos by
    simp only [List.length_append, hlt, List.length_cons, List.length_nil]; omega]
  rw [List.get?_drop]
  congr 1
  omega

/-- C4: a `goto_job` decision taken at step `si` of `job`, with the
target sitting at index `after` of the working list, inserts — when `si`
is not the last step — exactly one synthetic job immediately after the
target's position, named `job.name ++ "-resume-" ++ suffix` (the
time-based suffix made unique by the interpreter's counter) and holding
exactly the not-yet-executed steps `job.steps.drop (si + 1)`; every other
working-list entry is preserved (shifted by one past the insertion
point).  When the deciding step is the last step, the working list is
unchanged.  Concretely, jumping from the first of three steps of job `A`
to job `B` runs `a1`, then all of `B`, then the remaining `a2, a3`
exactly once, via the synthetic job `A-resume-0`. -/
theorem insertResumeJob_spec :
    (∀ (jobs : List Job) (after : Nat) (job : Job) (si : Nat) (suffix : String),
      si + 1 < job.steps.length → after < jobs.length →
      (insertResumeJob jobs (after : Int) job (si : Int) suffix).length
          = jobs.length + 1 ∧
      (insertResumeJob jobs (after : Int) job (si : Int) suffix).get? (after + 1)
          = some ⟨job.name ++ "-resume-" ++ suffix, job.steps.drop (si + 1)⟩ ∧
      (∀ k, k ≤ after →
        (insertResumeJob jobs (after : Int) job (si : Int) suffix).get? k
            = jobs.get? k) ∧
      (∀ k, after < k →
        (insertResumeJob jobs (after : Int) job (si : Int) suffix).get? (k + 1)
            = jobs.get? k)) ∧
    (∀ (jobs : List Job) (after : Int) (job : Job) (si : Int) (suffix : String),
      (job.steps.length : Int) ≤ si + 1 →
      insertResumeJob jobs after job si suffix = jobs) ∧
    (runPipeline envResume pResume 20).map (fun r => (r.1, r.2.trace))
        = some (0, [("A", "a1"), ("B", "b1"),
                    ("A-resume-0", "a2"), ("A-resume-0", "a3")]) := by
  refine ⟨?_, ?_, by rfl⟩
  · intro jobs after job si suffix h1 h2
    have hguard : ¬ ((si : Int) + 1 ≥ (job.steps.length : Int)) := by
      omega
    have hpos : (if ((after : Int) + 1 < 0 : Prop) then 0
        else min ((after : Int) + 1).toNat jobs.length) = after + 1 := by
      rw [if_neg (by omega)]
      have : ((after : Int) + 1).toNat = after + 1 := by omega
      rw [this, Nat.min_eq_left (by omega)]
    have htn : ((si : Int) + 1).toNat = si + 1 := by omega
    unfold insertResumeJob
    rw [if_neg hguard]
    simp only [htn, hpos]
    have hle : after + 1 ≤ jobs.length := by omega
    exact ⟨insertAt_length _ _ _ hle,
      insertAt_get_self _ _ _ hle,
      fun k hk => insertAt_get_lt _ _ _ _ hle (by omega),
      fun k hk => insertAt_get_ge _ _ _ _ hle (by omega)⟩
  · intro jobs after job si suffix h
    unfold insertResumeJob
    rw [if_pos h]

/-- Witness for `insertResumeJob_spec`: jumping out of `jobA` (3 steps)
at step 0 with the target at working-list index 1 puts the synthetic job
with the remaining two steps at index 2; jumping at the last step is a
no-op. -/
theorem insertResumeJob_spec_witness :
    (insertResumeJob [jobA, jobB] ((1 : Nat) : Int) jobA ((0 : Nat) : Int) "0").get? 2
        = some ⟨"A-resume-0", jobA.steps.drop 1⟩ ∧
    insertResumeJob [jobA, jobB] 1 jobA 2 "0" = [jobA, jobB] :=
  ⟨(insertResumeJob_spec.1 [jobA, jobB] 1 jobA 0 "0" (by decide) (by decide)).2.1,
   insertResumeJob_spec.2.1 [jobA, jobB] 1 jobA 2 "0" (by decide)⟩

/-- C6: `goto_step` resolves its target only against the current job's
step-name index.  (a) If no step of the current job bears the target
name, the action aborts with exit code 6 — for every `allJobs`, so a step
of that name in any other job is irrelevant.  (b) On a hit at index
`idx`, the step cursor is set to `idx - 1` so that the loop increment
makes the next iteration begin at the named step, which really is a step
of the current job bearing the target name. -/
theorem gotoStep_current_job_only (allJobs : List Job) (curJob : Job)
    (target jobTarget : String) (st : EvalState) :
    ((∀ s ∈ curJob.steps, s.name ≠ target) →
      applyAction allJobs curJob "goto_step" target jobTarget st = .error 6) ∧
    (∀ idx, stepIndexOf curJob target = some idx → target ≠ "" →
      applyAction allJobs curJob "goto_step" target jobTarget st
          = .ok { st with si := (idx : Int) - 1 } ∧
      ∃ s, curJob.steps.get? idx = some s ∧ s.name = target) := by
  constructor
  · intro h
    by_cases ht : target = ""
    · simp [applyAction, ht]
    · simp [applyAction, ht, stepIndexOf_eq_none curJob target h]
  · intro idx hidx ht
    refine ⟨?_, stepIndexOf_valid curJob target idx hidx⟩
    simp [applyAction, ht, hidx]

/-- Witness for `gotoStep_current_job_only`: in `jobB` (whose only step
is `b1`) a `goto_step a2` aborts with 6 even though `a2` exists in
`jobA`, which is in scope as the declared job list; `goto_step b1` hits
index 0 and sets the cursor to `-1`. -/
theorem gotoStep_current_job_only_witness :
    applyAction [jobA, jobB] jobB "goto_step" "a2" "" stStart = .error 6 ∧
    applyAction [jobA, jobB] jobB "goto_step" "b1" "" stStart
        = .ok { stStart with si := (0 : Int) - 1 } := by
  constructor
  · exact (gotoStep_current_job_only [jobA, jobB] jobB "a2" "" stStart).1
      (by decide)
  · exact ((gotoStep_current_job_only [jobA, jobB] jobB "b1" "" stStart).2 0
      (by decide) (by decide)).1

/-- C5: `goto_job(name)` target resolution.  (a) The name is looked up
first in the working job list: a scan hit returns the first index bearing
the name and leaves the list unchanged.  (b) If absent from the working
list but found among the declared jobs, the declared job is inserted into
the working list immediately after the current job (index `ji`), and that
position is returned.  (c) If absent from both lists the lookup fails,
and (d2) the interpreter then aborts with exit code 6; (d1) on any
successful lookup the interpreter sets the job cursor to `found - 1` so
the loop increment transfers execution to the target job. -/
theorem gotoJob_resolution (execJobs allJobs : List Job) (target stepT : String)
    (ja : Int) (curJob : Job) (st : EvalState) :
    (∀ i, findJobIdx execJobs target = some i →
      resolveJobIndexExec execJobs allJobs target ja = some (i, execJobs) ∧
      ∃ jb, execJobs.get? i = some jb ∧ jb.name = target ∧
        ∀ k jb', k < i → execJobs.get? k = some jb' → jb'.name ≠ target) ∧
    (∀ (jb : Job) (ji : Nat), (∀ j ∈ execJobs, j.name ≠ target) →
      allJobs.find? (fun j => j.name == target) = some jb →
      ji < execJobs.length →
      resolveJobIndexExec execJobs allJobs target (ji : Int)
          = some (ji + 1, insertAt execJobs (ji + 1) jb)) ∧
    ((∀ j ∈ execJobs, j.name ≠ target) → (∀ j ∈ allJobs, j.name ≠ target) →
      resolveJobIndexExec execJobs allJobs target ja = none) ∧
    (∀ found jobs', target ≠ "" →
      resolveJobIndexExec st.jobs allJobs target st.ji = some (found, jobs') →
      applyAction allJobs curJob "goto_job" stepT target st
          = .ok { st with
                    jobs := insertResumeJob jobs' (found : Int) curJob st.si
                      (toString st.resumeCtr)
                    ji := (found : Int) - 1
                    resumeCtr := st.resumeCtr + 1
                    si := (curJob.steps.length : Int) }) ∧
    (target ≠ "" →
      resolveJobIndexExec st.jobs allJobs target st.ji = none →
      applyAction allJobs curJob "goto_job" stepT target st = .error 6) := by
  refine ⟨?_, ?_, ?_, ?_, ?_⟩
  · intro i h
    refine ⟨?_, findJobIdx_first execJobs target i h⟩
    unfold resolveJobIndexExec
    rw [h]
  · intro jb ji h1 hfind hji
    simp only [resolveJobIndexExec, findJobIdx_none execJobs target h1, hfind]
    rw [if_neg (by omega : ¬ (((ji : Nat) : Int) + 1 < 0))]
    rw [show (((ji : Nat) : Int) + 1).toNat = ji + 1 by omega,
      Nat.min_eq_left (by omega)]
  · intro h1 h2
    have hfind : allJobs.find? (fun j => j.name == target) = none :=
      List.find?_eq_none.mpr fun x hx => by simpa using h2 x hx
    simp only [resolveJobIndexExec, findJobIdx_none execJobs target h1, hfind]
  · intro found jobs' ht hres
    simp [applyAction, ht, hres]
  · intro ht hres
    simp [applyAction, ht, hres]

/-- Witness for `gotoJob_resolution` on the `[jobA, jobB]` fixture:
`goto_job B` finds the target at working-list index 1 (conjunct a);
with a working list holding only `jobA`, the declared `jobB` is inserted
right after the current job at index 1 (conjunct b); a name absent from
both lists resolves to nothing (conjunct c) and makes the action abort
with exit code 6 (conjunct d2); a successful resolution sets the job
cursor to `found - 1 = 0` (conjunct d1). -/
theorem gotoJob_resolution_witness :
    resolveJobIndexExec [jobA, jobB] [jobA, jobB] "B" 0 = some (1, [jobA, jobB]) ∧
    resolveJobIndexExec [jobA] [jobA, jobB] "B" ((0 : Nat) : Int)
        = some (1, insertAt [jobA] 1 jobB) ∧
    resolveJobIndexExec [jobA, jobB] [jobA, jobB] "C" 0 = none ∧
    applyAction [jobA, jobB] jobA "goto_job" "" "C" stStart = .error 6 ∧
    applyAction [jobA, jobB] jobA "goto_job" "" "B" stStart
        = .ok { stStart with
                  jobs := insertResumeJob [jobA, jobB] (1 : Int) jobA stStart.si
                    (toString stStart.resumeCtr)
                  ji := (1 : Int) - 1
                  resumeCtr := stStart.resumeCtr + 1
                  si := (jobA.steps.length : Int) } := by
  refine ⟨?_, ?_, ?_, ?_, ?_⟩
  · exact ((gotoJob_resolution [jobA, jobB] [jobA, jobB] "B" "" 0 jobA stStart).1
      1 (by decide)).1
  · exact (gotoJob_resolution [jobA] [jobA, jobB] "B" "" 0 jobA stStart).2.1
      jobB 0 (by decide) (by decide) (by decide)
  · exact (gotoJob_resolution [jobA, jobB] [jobA, jobB] "C" "" 0 jobA
      stStart).2.2.1 (by decide) (by decide)
  · exact (gotoJob_resolution [jobA, jobB] [jobA, jobB] "C" "" 0 jobA
      stStart).2.2.2.2 (by decide) (by decide)
  · exact (gotoJob_resolution [jobA, jobB] [jobA, jobB] "B" "" 0 jobA
      stStart).2.2.2.1 1 [jobA, jobB] (by decide) (by decide)

/-! ### Evaluator stage lemmas (C1, C2, C3, C9, C10) -/

/-- Once the step is marked handled, the on-timeout stage does nothing.
Because main.go line 694 sets `conditionMatched = true` unconditionally
right before this stage, the stage can never act. -/
theorem onTimeoutStage_of_matched (allJobs : List Job) (curJob : Job)
    (step : Step) (lastExit : Int) (errOccurred : Bool) (st : EvalState)
    (h : st.matched = true) :
    onTimeoutStage allJobs curJob step lastExit errOccurred st = .ok st := by
  simp [onTimeoutStage, h]

/-- `return 5` does not occur inside an action switch: the only codes an
action can abort with are 0 (`drop`), 6 (bad or missing target, unknown
action) and 7 (`fail`). -/
theorem applyAction_ne_five (allJobs : List Job) (curJob : Job)
    (a t jt : String) (st : EvalState) :
    applyAction allJobs curJob a t jt st ≠ .error 5 := by
  unfold applyAction
  repeat' split
  all_goals intro hc
  all_goals
    first
      | exact Except.noConfusion hc
      | (injection hc with h'; exact absurd h' (by decide))

theorem condLoop_ne_five (rm : String → String → Except Unit Bool)
    (allJobs : List Job) (curJob : Job) (out : String) :
    ∀ (conds : List Cond) (st : EvalState),
    condLoop rm allJobs curJob out conds st ≠ .error 5 := by
  intro conds
  induction conds with
  | nil => intro st; simp [condLoop]
  | cons c rest ih =>
      intro st
      unfold condLoop
      split
      · simp
      · split
        · split
          · rename_i rc heq hcontra
            intro hc
            cases hc
            exact applyAction_ne_five _ _ _ _ _ _ hcontra
          · exact ih _
        · exact ih _

theorem whenLoop_ne_five (rm : String → String → Except Unit Bool)
    (allJobs : List Job) (curJob : Job) (out : String) (lastExit : Int) :
    ∀ (ws : List WhenRule) (st : EvalState),
    whenLoop rm allJobs curJob out lastExit ws st ≠ .error 5 := by
  intro ws
  induction ws with
  | nil => intro st; simp [whenLoop]
  | cons w rest ih =>
      intro st
      unfold whenLoop
      split
      · simp
      · exact applyAction_ne_five _ _ _ _ _ _
      · exact ih _

theorem elseStage_ne_five (allJobs : List Job) (curJob : Job) (step : Step)
    (st : EvalState) : elseStage allJobs curJob step st ≠ .error 5 := by
  unfold elseStage
  split
  · exact applyAction_ne_five _ _ _ _ _ _
  · simp

/-- One job whose single step's command fails (exit 1) with no
conditions, when-rules, else branch or on-timeout configured. -/
def pFail : Pipeline :=
  { name := "p", runs := [], vars := [], jobs := [⟨"j1", [mkStep "s1" "false"]⟩] }

/-- Environment for `pFail`: every command exits 1 with a wait error. -/
def envFail : Env :=
  { validDur := fun _ => true, rmatch := litMatch,
    oracle := fun _ _ => ⟨"", 1, true⟩ }

/-- C1 (code bug): the unmatched-step-failure abort with exit code 5 is
unreachable.  Main.go line 694 sets `conditionMatched = true`
unconditionally (outside the `else_action` guard it was meant for, per
its own comment), so the check at lines 756-761 never fires: no
evaluation of any step can return 5, and concretely a run whose only
step's command exits 1 with nothing to absorb the failure completes with
exit code 0 instead of aborting with 5. -/
theorem unmatchedFailure_unreachable :
    (∀ (rm : String → String → Except Unit Bool) (allJobs : List Job)
      (curJob : Job) (step : Step) (out : String) (lastExit : Int)
      (errOccurred : Bool) (st : EvalState),
      evalStepRules rm allJobs curJob step out lastExit errOccurred st
          ≠ .error 5) ∧
    (runPipeline envFail pFail 10).map (fun r => (r.1, r.2.trace))
        = some (0, [("j1", "s1")]) := by
  refine ⟨?_, by rfl⟩
  intro rm allJobs curJob step out lastExit errOccurred st
  unfold evalStepRules
  split
  · rename_i rc h
    intro hc
    cases hc
    exact condLoop_ne_five _ _ _ _ _ _ h
  · rename_i st1 h1
    split
    · rename_i rc h
      intro hc
      cases hc
      split at h
      · exact absurd h (by simp)
      · exact whenLoop_ne_five _ _ _ _ _ _ _ h
    · rename_i st2 h2
      split
      · rename_i rc h
        intro hc
        cases hc
        exact elseStage_ne_five _ _ _ _ h
      · rename_i st2e h2e
        have hot := onTimeoutStage_of_matched allJobs curJob step lastExit
          errOccurred { st2e with matched := true } rfl
        simp [hot]

/-- A step whose commands hit the idle timeout (sentinel 124) and that
declares `on_timeout: goto_step s3`; the following steps `s2`, `s3`. -/
def stepSlow : Step :=
  { mkStep "s1" "slowcmd" with
    idleTimeout := "2s"
    onTimeout := "goto_step"
    onTimeoutStep := "s3" }

/-- Pipeline with the timed-out step followed by `s2` and `s3`. -/
def pTimeout : Pipeline :=
  { name := "p", runs := [], vars := [],
    jobs := [⟨"j1", [stepSlow, mkStep "s2" "echo two", mkStep "s3" "echo three"]⟩] }

/-- Environment for `pTimeout`: `slowcmd` is killed by the idle timeout
(exit 124, wait error); everything else succeeds. -/
def envTimeout : Env :=
  { validDur := fun _ => true, rmatch := litMatch,
    oracle := fun _ c => if c = "slowcmd" then ⟨"", 124, true⟩ else ⟨"", 0, false⟩ }

/-- C2 (code bug): the on-timeout shortcut is dead code.  Its guard at
main.go line 697 requires `!conditionMatched`, but line 694 has just set
`conditionMatched = true` unconditionally, so the step evaluation result
never depends on the `on_timeout` configuration at all; concretely, a
step killed by its idle timeout (exit 124) with `on_timeout: goto_step
s3` does not jump — `s2` still runs and the run ends with exit 0. -/
theorem onTimeout_shortcut_dead :
    (∀ (rm : String → String → Except Unit Bool) (allJobs : List Job)
      (curJob : Job) (step : Step) (x y z : String) (out : String)
      (lastExit : Int) (errOccurred : Bool) (st : EvalState),
      evalStepRules rm allJobs curJob
          { step with onTimeout := x, onTimeoutStep := y, onTimeoutJob := z }
          out lastExit errOccurred st
        = evalStepRules rm allJobs curJob step out lastExit errOccurred st) ∧
    (runPipeline envTimeout pTimeout 10).map (fun r => (r.1, r.2.trace))
        = some (0, [("j1", "s1"), ("j1", "s2"), ("j1", "s3")]) := by
  refine ⟨?_, by rfl⟩
  intro rm allJobs curJob step x y z out lastExit errOccurred st
  have he : ∀ st2, elseStage allJobs curJob
      { step with onTimeout := x, onTimeoutStep := y, onTimeoutJob := z } st2
      = elseStage allJobs curJob step st2 := fun _ => rfl
  have hcp :
      ({ step with onTimeout := x, onTimeoutStep := y, onTimeoutJob := z } : Step).conditions
        = step.conditions := rfl
  have hwp :
      ({ step with onTimeout := x, onTimeoutStep := y, onTimeoutJob := z } : Step).whenRules
        = step.whenRules := rfl
  unfold evalStepRules
  rw [hcp, hwp]
  simp only [he]
  split
  · rfl
  · split
    · rfl
    · split
      · rfl
      · rename_i st2e h3
        have hot1 := onTimeoutStage_of_matched allJobs curJob
          { step with onTimeout := x, onTimeoutStep := y, onTimeoutJob := z }
          lastExit errOccurred { st2e with matched := true } rfl
        have hot2 := onTimeoutStage_of_matched allJobs curJob step
          lastExit errOccurred { st2e with matched := true } rfl
        simp [hot1, hot2]

/-- C3 counterexample: the claim says the FIRST legacy condition whose
pattern matches determines the step's action and no later condition's
action is applied.  On output `"ab"` both patterns `a` and `b` match;
the first condition's action is `goto_step a3`, yet with the second
condition (`fail`) present the evaluation aborts with exit code 7: the
Go `conditions` loop has no `break`, so the later condition's action is
applied too.  (Alone, the first condition sets the cursor to
`idx(a3) - 1 = 1`.) -/
theorem condLoop_not_first_match_only :
    condLoop litMatch [jobA] jobA "ab"
        [⟨"a", "goto_step", "a3", ""⟩, ⟨"b", "fail", "", ""⟩] stStart
      = .error 7 ∧
    condLoop litMatch [jobA] jobA "ab" [⟨"a", "goto_step", "a3", ""⟩] stStart
      = .ok { stStart with si := 1, matched := true } := by
  exact ⟨rfl, rfl⟩

/-- C3 as amended: the rule stages run in the order legacy conditions,
when-rules, else-branch, and a match in an earlier stage prevents every
later stage (the on-timeout stage, though syntactically last, is
unreachable — see the on-timeout theorem); but within the legacy
conditions EVERY matching condition's action is applied in declaration
order (the loop does not stop at the first match): (i) if the legacy
stage ends marked as matched, the whole evaluation result is
`.ok st1` with the handled flag set, independent of the when-rules,
else-branch and on-timeout configuration; (ii) if the legacy stage ends
unmatched and the when stage ends matched, the result likewise ignores
the else-branch; (iii) a matching legacy condition applies its action
and evaluation then CONTINUES with the remaining conditions. -/
theorem ruleStages_order_amended :
    (∀ (rm : String → String → Except Unit Bool) (aj : List Job) (cj : Job)
      (step : Step) (out : String) (le : Int) (eo : Bool) (st st1 : EvalState),
      condLoop rm aj cj out step.conditions { st with matched := false } = .ok st1 →
      st1.matched = true →
      evalStepRules rm aj cj step out le eo st = .ok { st1 with matched := true }) ∧
    (∀ (rm : String → String → Except Unit Bool) (aj : List Job) (cj : Job)
      (step : Step) (out : String) (le : Int) (eo : Bool) (st st1 st2 : EvalState),
      condLoop rm aj cj out step.conditions { st with matched := false } = .ok st1 →
      st1.matched = false →
      whenLoop rm aj cj out le step.whenRules st1 = .ok st2 →
      st2.matched = true →
      evalStepRules rm aj cj step out le eo st = .ok { st2 with matched := true }) ∧
    (∀ (rm : String → String → Except Unit Bool) (aj : List Job) (cj : Job)
      (out : String) (c : Cond) (rest : List Cond) (st : EvalState),
      rm (interpolate c.pattern st.vars) out = .ok true →
      condLoop rm aj cj out (c :: rest) st
        = match applyAction aj cj c.action c.step c.job { st with matched := true } with
          | .error rc => .error rc
          | .ok st' => condLoop rm aj cj out rest st') := by
  refine ⟨?_, ?_, ?_⟩
  · intro rm aj cj step out le eo st st1 h1 h2
    have hot := onTimeoutStage_of_matched aj cj step le eo
      { st1 with matched := true } rfl
    simp [evalStepRules, h1, h2, elseStage, hot]
  · intro rm aj cj step out le eo st st1 st2 h1 h2 h3 h4
    have hot := onTimeoutStage_of_matched aj cj step le eo
      { st2 with matched := true } rfl
    simp [evalStepRules, h1, h2, h3, h4, elseStage, hot]
  · intro rm aj cj out c rest st h
    simp only [condLoop]
    rw [h]
    simp

/-- A step with one always-matching legacy condition. -/
def stepCM : Step :=
  { mkStep "s1" "c" with conditions := [⟨"a", "continue", "", ""⟩] }

/-- A step with one matching when-rule (contains). -/
def stepWM : Step :=
  { mkStep "s1" "c" with whenRules := [⟨"a", "", "", none, "continue", "", ""⟩] }

/-- Witness for `ruleStages_order_amended` on concrete inputs: a matched
legacy condition (i), a matched when-rule (ii), and the loop continuing
past a matching condition (iii). -/
theorem ruleStages_order_amended_witness :
    evalStepRules litMatch [jobA] jobA stepCM "a" 0 false stStart
        = .ok { stStart with matched := true } ∧
    evalStepRules litMatch [jobA] jobA stepWM "a" 0 false stStart
        = .ok { stStart with matched := true } ∧
    condLoop litMatch [jobA] jobA "a" [⟨"a", "continue", "", ""⟩] stStart
        = condLoop litMatch [jobA] jobA "a" [] { stStart with matched := true } := by
  refine ⟨?_, ?_, ?_⟩
  · exact ruleStages_order_amended.1 litMatch [jobA] jobA stepCM "a" 0 false
      stStart { stStart with matched := true } (by rfl) rfl
  · exact ruleStages_order_amended.2.1 litMatch [jobA] jobA stepWM "a" 0 false
      stStart { stStart with matched := false } { stStart with matched := true }
      (by rfl) rfl (by rfl) rfl
  · exact ruleStages_order_amended.2.2 litMatch [jobA] jobA "a"
      ⟨"a", "continue", "", ""⟩ [] stStart (by rfl)

/-- C9: when-rule operator evaluation and rule selection.  (a) Given the
regex oracle's verdict `b` (only relevant when the rule carries a regex),
a rule matches exactly when some present operator's test succeeds:
non-empty `contains` by substring, non-empty `equals` by trimmed
equality, non-empty `regex` by the oracle, present `exit_code` by integer
equality with the last exit code.  (b) Priority: when the contains or
equals operator already matched, the rule evaluates to matched without
consulting the regex engine at all (any two oracles give the same
result).  (c) Among a step's when-rules the first matched rule's action
is applied and no later rule is evaluated (the result does not depend on
the remaining rules); an unmatched rule merely passes evaluation on. -/
theorem whenRule_priority_first_match :
    (∀ (rm : String → String → Except Unit Bool) (out : String) (le : Int)
      (vars : VarMap) (w : WhenRule) (b : Bool),
      (w.regex ≠ "" → rm (interpolate w.regex vars) out = .ok b) →
      evalWhenMatch rm out le vars w
        = .ok ((w.contains != "" && strContains out (interpolate w.contains vars))
            || (w.equals != "" && trimStr out == trimStr (interpolate w.equals vars))
            || (w.regex != "" && b)
            || exitCodeTest w le)) ∧
    (∀ (rm rm' : String → String → Except Unit Bool) (out : String) (le : Int)
      (vars : VarMap) (w : WhenRule),
      ((w.contains != "" && strContains out (interpolate w.contains vars))
        || (w.equals != "" && trimStr out == trimStr (interpolate w.equals vars)))
          = true →
      evalWhenMatch rm out le vars w = .ok true ∧
      evalWhenMatch rm out le vars w = evalWhenMatch rm' out le vars w) ∧
    (∀ (rm : String → String → Except Unit Bool) (aj : List Job) (cj : Job)
      (out : String) (le : Int) (w : WhenRule) (rest : List WhenRule)
      (st : EvalState),
      (evalWhenMatch rm out le st.vars w = .ok true →
        whenLoop rm aj cj out le (w :: rest) st
          = applyAction aj cj w.action w.step w.job { st with matched := true }) ∧
      (evalWhenMatch rm out le st.vars w = .ok false →
        whenLoop rm aj cj out le (w :: rest) st
          = whenLoop rm aj cj out le rest st)) := by
  refine ⟨?_, ?_, ?_⟩
  · intro rm out le vars w b hreg
    by_cases hm : ((w.contains != "" && strContains out (interpolate w.contains vars))
        || (w.equals != "" && trimStr out == trimStr (interpolate w.equals vars)))
          = true
    · simp [evalWhenMatch, hm]
    · have hm' := Bool.eq_false_iff.mpr fun hc => hm hc
      by_cases hr : w.regex = ""
      · simp [evalWhenMatch, hm', hr]
      · have hrb : (w.regex != "") = true := bne_iff_ne.mpr hr
        cases b <;> simp [evalWhenMatch, hm', hrb, hreg hr]
  · intro rm rm' out le vars w hm
    exact ⟨by simp [evalWhenMatch, hm], by simp [evalWhenMatch, hm]⟩
  · intro rm aj cj out le w rest st
    constructor
    · intro h
      simp only [whenLoop, h]
    · intro h
      simp only [whenLoop, h]

/-- A when-rule with only the contains operator. -/
def wContains : WhenRule := ⟨"he", "", "", none, "continue", "", ""⟩

/-- A when-rule with only the exit_code operator. -/
def wExit : WhenRule := ⟨"", "", "", some 7, "continue", "", ""⟩

/-- A regex oracle that rejects every pattern, standing in for an
invalid regular expression. -/
def errOracle : String → String → Except Unit Bool := fun _ _ => .error ()

/-- Witness for `whenRule_priority_first_match`: an exit_code-only rule
matches exit code 7 (a); a contains hit never consults the (broken)
regex oracle (b); the first matching rule decides and a non-matching
rule passes on (c). -/
theorem whenRule_priority_first_match_witness :
    evalWhenMatch litMatch "hello" 7 [] wExit = .ok true ∧
    evalWhenMatch errOracle "hello" 0 [] wContains = .ok true ∧
    whenLoop litMatch [jobA] jobA "hello" 0 [wContains, wExit] stStart
        = .ok { stStart with matched := true } ∧
    whenLoop litMatch [jobA] jobA "xyz" 3 [wContains] stStart
        = whenLoop litMatch [jobA] jobA "xyz" 3 [] stStart := by
  refine ⟨?_, ?_, ?_, ?_⟩
  · exact whenRule_priority_first_match.1 litMatch "hello" 7 [] wExit false
      (fun hf => absurd rfl hf)
  · exact (whenRule_priority_first_match.2.1 errOracle errOracle "hello" 0 []
      wContains (by decide)).1
  · exact (whenRule_priority_first_match.2.2 litMatch [jobA] jobA "hello" 0
      wContains [wExit] stStart).1 (by rfl)
  · exact (whenRule_priority_first_match.2.2 litMatch [jobA] jobA "xyz" 3
      wContains [] stStart).2 (by rfl)

/-! ### `save_output` happens before rule evaluation (C10) -/

theorem getVar_setVar_self (m : VarMap) (k v : String) :
    getVar (setVar m k v) k = some v := by
  induction m with
  | nil => simp [setVar, getVar]
  | cons p t ih =>
      by_cases h : p.1 = k
      · simp [setVar, getVar, h]
      · simp [setVar, getVar, h, ih]

theorem setVar_setVar (m : VarMap) (k v w : String) :
    setVar (setVar m k v) k w = setVar m k w := by
  induction m with
  | nil => simp [setVar]
  | cons p t ih =>
      by_cases h : p.1 = k
      · simp [setVar, h]
      · simp [setVar, h, ih]

/-- No action switch writes the variable environment. -/
theorem applyAction_vars (allJobs : List Job) (curJob : Job)
    (a t jt : String) (st st' : EvalState)
    (h : applyAction allJobs curJob a t jt st = .ok st') : st'.vars = st.vars := by
  unfold applyAction at h
  repeat' split at h
  all_goals cases h <;> rfl

theorem condLoop_vars (rm : String → String → Except Unit Bool)
    (allJobs : List Job) (curJob : Job) (out : String) :
    ∀ (conds : List Cond) (st st' : EvalState),
    condLoop rm allJobs curJob out conds st = .ok st' → st'.vars = st.vars := by
  intro conds
  induction conds with
  | nil => intro st st' h; cases h; rfl
  | cons c rest ih =>
      intro st st' h
      unfold condLoop at h
      split at h
      · exact absurd h (by simp)
      · split at h
        · split at h
          · exact absurd h (by simp)
          · rename_i st'' heq
            have hv := applyAction_vars allJobs curJob c.action c.step c.job
              { st with matched := true } st'' heq
            rw [ih _ _ h, hv]
        · exact ih _ _ h

theorem whenLoop_vars (rm : String → String → Except Unit Bool)
    (allJobs : List Job) (curJob : Job) (out : String) (lastExit : Int) :
    ∀ (ws : List WhenRule) (st st' : EvalState),
    whenLoop rm allJobs curJob out lastExit ws st = .ok st' → st'.vars = st.vars := by
  intro ws
  induction ws with
  | nil => intro st st' h; cases h; rfl
  | cons w rest ih =>
      intro st st' h
      unfold whenLoop at h
      split at h
      · exact absurd h (by simp)
      · exact applyAction_vars allJobs curJob w.action w.step w.job
          { st with matched := true } st' h
      · exact ih _ _ h

theorem elseStage_vars (allJobs : List Job) (curJob : Job) (step : Step)
    (st st' : EvalState) (h : elseStage allJobs curJob step st = .ok st') :
    st'.vars = st.vars := by
  unfold elseStage at h
  split at h
  · exact applyAction_vars _ _ _ _ _ _ _ h
  · cases h; rfl

theorem onTimeoutStage_vars (allJobs : List Job) (curJob : Job) (step : Step)
    (lastExit : Int) (errOccurred : Bool) (st st' : EvalState)
    (h : onTimeoutStage allJobs curJob step lastExit errOccurred st = .ok st') :
    st'.vars = st.vars := by
  unfold onTimeoutStage at h
  split at h
  · split at h
    · exact absurd h (by simp)
    · rename_i st'' heq
      cases h
      show st''.vars = st.vars
      exact applyAction_vars _ _ _ _ _ _ _ heq
  · cases h; rfl

/-- Rule evaluation never writes the variable environment. -/
theorem evalStepRules_vars (rm : String → String → Except Unit Bool)
    (allJobs : List Job) (curJob : Job) (step : Step) (out : String)
    (lastExit : Int) (errOccurred : Bool) (st st' : EvalState)
    (h : evalStepRules rm allJobs curJob step out lastExit errOccurred st
        = .ok st') : st'.vars = st.vars := by
  unfold evalStepRules at h
  split at h
  · exact absurd h (by simp)
  · rename_i st1 h1
    split at h
    · exact absurd h (by simp)
    · rename_i st2 h2
      split at h
      · exact absurd h (by simp)
      · rename_i st2e h2e
        split at h
        · exact absurd h (by simp)
        · rename_i st4 h4
          have e4 : st4.vars = st2e.vars :=
            onTimeoutStage_vars allJobs curJob step lastExit errOccurred
              { st2e with matched := true } st4 h4
          have e3 : st2e.vars = st2.vars := elseStage_vars _ _ _ _ _ h2e
          have e2 : st2.vars = st1.vars := by
            split at h2
            · cases h2; rfl
            · exact whenLoop_vars _ _ _ _ _ _ _ _ h2
          have e1 : st1.vars = st.vars :=
            condLoop_vars rm allJobs curJob out step.conditions
              { st with matched := false } st1 h1
          have e0 : st'.vars = st4.vars := by
            split at h
            · exact absurd h (by simp)
            · cases h; rfl
          rw [e0, e4, e3, e2, e1]

/-- C10: for a step with a non-empty `save_output` key, after the
commands ran (i) whenever evaluation continues, the variable environment
maps the key to the whitespace-trimmed combined output — not the raw
captured text — and (ii) the write happens before any condition or
when-rule is evaluated: the whole evaluation behaves identically when
the input environment already contains the write, i.e. nothing consults
the key's previous value. -/
theorem saveOutput_before_rules (rm : String → String → Except Unit Bool)
    (allJobs : List Job) (curJob : Job) (step : Step) (out : String)
    (lastExit : Int) (errOccurred : Bool) (st : EvalState)
    (h : step.saveOutput ≠ "") :
    (∀ st', afterCmds rm allJobs curJob step out lastExit errOccurred st
        = .ok st' →
      getVar st'.vars step.saveOutput = some (trimStr out)) ∧
    afterCmds rm allJobs curJob step out lastExit errOccurred st
      = afterCmds rm allJobs curJob step out lastExit errOccurred
          { st with vars := setVar st.vars step.saveOutput (trimStr out) } := by
  have hb : (step.saveOutput != "") = true := bne_iff_ne.mpr h
  constructor
  · intro st' h'
    unfold afterCmds at h'
    rw [if_pos hb] at h'
    rw [evalStepRules_vars _ _ _ _ _ _ _ _ _ h']
    exact getVar_setVar_self _ _ _
  · unfold afterCmds
    rw [if_pos hb, if_pos hb]
    exact congrArg (evalStepRules rm allJobs curJob step out lastExit errOccurred)
      (by simp [setVar_setVar])

/-- A step saving its output under the key `out1`. -/
def stepSO : Step := { mkStep "s1" "c" with saveOutput := "out1" }

/-- Witness for `saveOutput_before_rules`: with combined output
`" alpha "`, the step stores the trimmed `"alpha"` under `out1`. -/
theorem saveOutput_before_rules_witness :
    getVar ({ stStart with vars := [("out1", "alpha")], matched := true }
        : EvalState).vars "out1" = some (trimStr " alpha ") :=
  (saveOutput_before_rules litMatch [jobA] jobA stepSO " alpha " 0 false stStart
      (by decide)).1
    { stStart with vars := [("out1", "alpha")], matched := true } (by rfl)

end Pipejob
